import Mathlib

/-!
Verification of the anonymization pipeline (`security_pipeline`).

Texts are embedded as `List Char`; Python dicts as association lists in
insertion order; the substitution primitive `_multi_replace` (helper.py) is
embedded via a fuel-indexed scanner matching `re.sub(re.escape(old), new, t)`
semantics (leftmost, non-overlapping, replace-all).
-/

namespace SecurityPipeline

/-- One substitution entry: (original value, replacement). -/
abbrev Rep := List Char × List Char

/-- Scanner for `re.sub(re.escape(old), new, t)`: leftmost non-overlapping
replacement of every occurrence of `old` (assumed nonempty) by `new`.
The fuel argument is only there to make the recursion structural; it is
adequate whenever `t.length ≤ fuel`. -/
def raFuel (old new : List Char) : Nat → List Char → List Char
  | 0, t => t
  | _ + 1, [] => []
  | fuel + 1, c :: rest =>
    if old.isPrefixOf (c :: rest) then
      new ++ raFuel old new fuel ((c :: rest).drop old.length)
    else
      c :: raFuel old new fuel rest

/-- Embeds `re.sub("", new, t)`: the empty pattern matches at every position,
including the end of the text. -/
def subEmptyPat (new : List Char) : List Char → List Char
  | [] => new
  | c :: rest => new ++ c :: subEmptyPat new rest

/-- Embeds `re.sub(re.escape(old), new, t)` for a literal pattern `old`. -/
def pyReplace (old new t : List Char) : List Char :=
  if old = [] then subEmptyPat new t else raFuel old new t.length t

/-- Insert a pair into a list already sorted by descending key length,
placing it after all keys of greater-or-equal length (stability). -/
def insertDesc (p : Rep) : List Rep → List Rep
  | [] => [p]
  | q :: qs => if q.1.length ≤ p.1.length then p :: q :: qs else q :: insertDesc p qs

/-- Python's stable `sorted(pairs, key=len(key), reverse=True)`. -/
def sortDesc : List Rep → List Rep
  | [] => []
  | p :: ps => insertDesc p (sortDesc ps)

/-- Apply a list of substitution passes left to right. -/
def applyPasses (t : List Char) (ps : List Rep) : List Char :=
  ps.foldl (fun acc p => pyReplace p.1 p.2 acc) t

/-- Embeds `_multi_replace` (helper.py): sort the map's entries by descending key
length, then run one global `re.sub` pass per entry. -/
def multi_replace (t : List Char) (reps : List Rep) : List Char :=
  if reps = [] then t else applyPasses t (sortDesc reps)

/-- A detected PII entity: `{"type": ..., "value": ...}`. -/
structure Entity where
  etype : List Char
  value : List Char
deriving DecidableEq

/-- Python dict assignment `m[k] = v` on an association list: overwrite in
place if the key is present, append otherwise. -/
def assocSet (m : List Rep) (k v : List Char) : List Rep :=
  if m.any (fun p => p.1 = k) then
    m.map (fun p => if p.1 = k then (k, v) else p)
  else m ++ [(k, v)]

/-- Audit record written into `ctx.metadata["audit"]` (audit_trail.py). -/
structure AuditInfo where
  intent : List Char
  pii_discovered : Nat
  masked_entities : List Entity
  name_mapping : List Rep
deriving DecidableEq

/-- Modelled from the spec: the shared `PipelineContext` (its defining module
`security_pipeline/pipeline.py` is not under src/; fields follow spec §3,
with `metadata["audit"]` modelled as an optional `AuditInfo`). -/
structure PipelineContext where
  original_text : List Char
  coreference_resolved_text : List Char
  processed_text : List Char
  intent : List Char
  pii_entities : List Entity
  replacement_map : List Rep
  audit : Option AuditInfo
deriving DecidableEq

/-! ### Masking stage (stages/PII_masking.py) -/

/-- Embeds `PIIMaskStage.IMMUNE_TYPES`, the set of the two name types. -/
def IMMUNE_TYPES : List (List Char) := ["COMPANY_NAME".data, "PERSON_NAME".data]

/-- The bracketed placeholder `f'<{ptype}>'`. -/
def placeholder (ptype : List Char) : List Char := '<' :: ptype ++ ['>']

/-- The `masks` dict built by `PIIMaskStage.process`: every non-immune
entity's value maps to its type's placeholder. -/
def maskPairs (es : List Entity) : List Rep :=
  es.foldl
    (fun m e => if e.etype ∈ IMMUNE_TYPES then m else assocSet m e.value (placeholder e.etype))
    []

/-- Embeds `PIIMaskStage.process`. -/
def maskProcess (ctx : PipelineContext) : PipelineContext :=
  if ctx.pii_entities = [] then ctx
  else { ctx with processed_text := multi_replace ctx.processed_text (maskPairs ctx.pii_entities) }

/-! ### Name replacement stage (stages/name_replacement.py) -/

/-- Fixed first-name list of `generate_random_person_name`. -/
def firstNames : List (List Char) :=
  ["Alex".data, "Jordan".data, "Taylor".data, "Morgan".data, "Casey".data, "Riley".data,
   "Jamie".data, "Avery".data, "Peyton".data, "Quinn".data, "Abaobi".data]

/-- Fixed last-name list of `generate_random_person_name`. -/
def lastNames : List (List Char) :=
  ["SmithDoe".data, "JohnsonDoe".data, "LeeDoe".data, "BrownDoe".data, "GarciaDoe".data,
   "MartinezDoe".data, "DavisDoe".data, "ClarkDoe".data, "LewisDoe".data, "WalkerDoe".data,
   "OlufemiDoe".data]

/-- Fixed company-prefix list of `generate_random_company_name`. -/
def companyPrefixes : List (List Char) :=
  ["ABCTech".data, "ABCGlobal".data, "ABCNextGen".data, "XYZPioneer".data, "ABCVision".data,
   "ABCQuantum".data, "XYZBlue".data, "ABCGreen".data, "DEFPrime".data, "123Dynamic".data]

/-- Fixed company-suffix list of `generate_random_company_name`. -/
def companySuffixes : List (List Char) :=
  ["Solutions".data, "Systems".data, "Industries".data, "Enterprises".data, "Group".data,
   "Technologies".data, "Holdings".data, "Partners".data, "Labs".data, "Networks".data]

/-- Name-type test used by `NameReplacementStage.process`. -/
def isNameType (e : Entity) : Bool :=
  e.etype = "PERSON_NAME".data ∨ e.etype = "COMPANY_NAME".data

/-- One loop step of `NameReplacementStage.process`: state is
(`replacements`, `ctx.replacement_map`, number of aliases generated so far).
`gen n` abstracts the n-th alias produced by `random.choice` draws. -/
def nameStep (gen : Nat → List Char) (acc : List Rep × List Rep × Nat) (e : Entity) :
    List Rep × List Rep × Nat :=
  if isNameType e then
    (assocSet acc.1 e.value (gen acc.2.2), assocSet acc.2.1 e.value (gen acc.2.2), acc.2.2 + 1)
  else acc

/-- Embeds `NameReplacementStage.process`, parameterized by the random alias source
`gen` (the stage draws aliases with `random.choice`). -/
def nameReplacementProcess (gen : Nat → List Char) (ctx : PipelineContext) : PipelineContext :=
  if ctx.intent ≠ "reasoning".data then ctx
  else
    let st := ctx.pii_entities.foldl (nameStep gen) ([], ctx.replacement_map, 0)
    { ctx with
      replacement_map := st.2.1
      processed_text := multi_replace ctx.processed_text st.1 }

/-! ### Audit stage (stages/audit_trail.py) -/

/-- Embeds `AuditStage.process`: note the filter keeps every entity whose type is
NOT a substring of the string `"NameReplacementStage"` — the code tests
`e["type"] not in NameReplacementStage.__name__`. -/
def auditProcess (ctx : PipelineContext) : PipelineContext :=
  { ctx with
    audit := some
      { intent := ctx.intent
        pii_discovered := ctx.pii_entities.length
        masked_entities :=
          ctx.pii_entities.filter (fun e => decide (¬ e.etype <:+: "NameReplacementStage".data))
        name_mapping := ctx.replacement_map } }

/-! ### Intent classifier (stages/intent_classifier.py) -/

/-- Embeds `IntentClassifierStage.SEARCH_KEYWORDS`. -/
def SEARCH_KEYWORDS : List (List Char) :=
  ["find".data, "lookup".data, "list".data, "search".data, "show".data,
   "retrieve".data, "query".data]

/-- Embeds `IntentClassifierStage.REASONING_KEYWORDS`. -/
def REASONING_KEYWORDS : List (List Char) :=
  ["why".data, "how".data, "explain".data, "compare".data, "analyse".data,
   "analysis".data, "reason".data, "evaluate".data, "calculate".data]

/-- Embeds Python substring containment `word in text_lower`, as a Bool. -/
def containsSub (t w : List Char) : Bool := decide (w <:+: t)

/-- Embeds `IntentClassifierStage.keyword_intent_classification`. -/
def keyword_intent_classification (text : List Char) : List Char :=
  let text_lower := text.map Char.toLower
  let search_score := SEARCH_KEYWORDS.any (fun w => containsSub text_lower w)
  let reasoning_score := REASONING_KEYWORDS.any (fun w => containsSub text_lower w)
  if search_score ∧ ¬ reasoning_score then "search".data
  else if reasoning_score ∧ ¬ search_score then "reasoning".data
  else if text_lower.length < 140 then "search".data else "reasoning".data

/-- Count of a given vote string in the tally (`results[...]`). -/
def countVotes (votes : List (List Char)) (label : List Char) : Nat :=
  (votes.filter (fun v => v = label)).length

/-- Embeds `IntentClassifierStage.process`: ensemble voting. The LLM and spaCy
strategies are external services; each is modelled as an optional vote
(`none` = strategy unavailable or its call failed and was excluded). The
keyword strategy always runs and always votes. -/
def classifierProcess (llmVote spacyVote : Option (List Char)) (ctx : PipelineContext) :
    PipelineContext :=
  let keyword_intent := keyword_intent_classification ctx.original_text
  let votes := llmVote.toList ++ spacyVote.toList ++ [keyword_intent]
  let s := countVotes votes "search".data
  let r := countVotes votes "reasoning".data
  let intent :=
    if votes.length = 0 then "search".data
    else if s = r then keyword_intent
    else if s > r then "search".data else "reasoning".data
  { ctx with intent := intent }

/-! ### Entity merge (stages/PII_detector.py) -/

/-- Embeds the fixed priority order of `merge_entities` (most specific first). -/
def priorityTypes : List (List Char) :=
  ["SSN".data, "CREDIT_CARD".data, "EMAIL".data, "PHONE".data, "ADDRESS".data,
   "PERSON_NAME".data, "COMPANY_NAME".data, "FINANCIAL".data, "ID_NUMBER".data,
   "LOCATION".data, "DATE".data, "URL".data, "IP".data, "NUMBER".data,
   "QUANTITY".data, "PRODUCT".data]

/-- One step of building `value_to_entities`: append `e` to the group keyed
by its value, creating the group if absent (Python dict of lists). -/
def addToGroup (acc : List (List Char × List Entity)) (e : Entity) :
    List (List Char × List Entity) :=
  if acc.any (fun g => g.1 = e.value) then
    acc.map (fun g => if g.1 = e.value then (g.1, g.2 ++ [e]) else g)
  else acc ++ [(e.value, [e])]

/-- The `value_to_entities` dict of `merge_entities`, in insertion order. -/
def groupByValue (es : List Entity) : List (List Char × List Entity) :=
  es.foldl addToGroup []

/-- Embeds `Counter(entity_types).most_common(1)[0][0]`: the type with the largest
count; ties resolve to the first-encountered type (Counter insertion order). -/
def mostCommon (ts : List (List Char)) : List Char :=
  match ts with
  | [] => []
  | t :: _ => ts.foldl (fun best x => if countVotes ts x > countVotes ts best then x else best) t

/-- Resolution of one value group in `merge_entities`: a singleton group
passes through; otherwise the first priority type present wins, with a
majority vote as fallback. -/
def mergeGroup (v : List Char) (g : List Entity) : Entity :=
  if g.length = 1 then g.headD ⟨[], v⟩
  else
    let etypes := g.map Entity.etype
    match priorityTypes.find? (fun p => etypes.contains p) with
    | some t => ⟨t, v⟩
    | none => ⟨mostCommon etypes, v⟩

/-- Embeds `PIIDetectorStage.merge_entities`. -/
def merge_entities (entities : List Entity) : List Entity :=
  (groupByValue entities).map (fun g => mergeGroup g.1 g.2)

/-- Embeds `PIIDetectorStage.process`: the three detectors (regex, spaCy, Presidio)
read `ctx.coreference_resolved_text`; their concatenated candidate lists are
external inputs here, abstracted by `detect`. The stage merges them into
`ctx.pii_entities`. -/
def detectorProcess (detect : List Char → List Entity) (ctx : PipelineContext) :
    PipelineContext :=
  { ctx with pii_entities := merge_entities (detect ctx.coreference_resolved_text) }

/-! ### Coreference stage (stages/corefrence.py) -/

/-- Embeds `CoreferenceStage.process`, parameterized by the external fastcoref
resolver `resolve`. -/
def corefProcess (resolve : List Char → List Char) (ctx : PipelineContext) : PipelineContext :=
  { ctx with
    coreference_resolved_text := resolve ctx.original_text
    processed_text := resolve ctx.original_text }

/-! ### Pipeline assembly (main.py) -/

/-- Names of the pipeline stage classes. -/
inductive StageName where
  | intentClassifier
  | coreference
  | piiDetector
  | piiMask
  | nameReplacement
  | audit
deriving DecidableEq

/-- The stage list of `build_default_pipeline` (main.py), in source order. -/
def build_default_pipeline : List StageName :=
  [.intentClassifier, .coreference, .piiDetector, .piiMask, .nameReplacement, .audit]

/-- The context transformer of one stage, given its external collaborators. -/
def stageFn (llmVote spacyVote : Option (List Char)) (resolve : List Char → List Char)
    (detect : List Char → List Entity) (gen : Nat → List Char) :
    StageName → PipelineContext → PipelineContext
  | .intentClassifier => classifierProcess llmVote spacyVote
  | .coreference => corefProcess resolve
  | .piiDetector => detectorProcess detect
  | .piiMask => maskProcess
  | .nameReplacement => nameReplacementProcess gen
  | .audit => auditProcess

/-- Modelled from the spec: the orchestrator `SecurityPipeline.process`
(`security_pipeline/pipeline.py` is not under src/) "owns the shared
context, runs stages in order, returns the final result" — a left fold of
the stage functions over the context. -/
def runPipeline (stages : List (PipelineContext → PipelineContext)) (ctx : PipelineContext) :
    PipelineContext :=
  stages.foldl (fun c s => s c) ctx

/-- A run of the default pipeline on raw input `text` (context fields start
empty, `original_text = text`). -/
def runDefault (llmVote spacyVote : Option (List Char)) (resolve : List Char → List Char)
    (detect : List Char → List Entity) (gen : Nat → List Char) (text : List Char) :
    PipelineContext :=
  runPipeline (build_default_pipeline.map (stageFn llmVote spacyVote resolve detect gen))
    ⟨text, [], [], [], [], [], none⟩

/-! ### Non-interference conditions for substitution maps -/

/-- Condition: `k` can be eliminated by a run of passes `ps`: no pass's replacement
text contains `k` or hands it one of its boundary characters back. -/
def EliminableKey (ps : List Rep) (k : List Char) : Prop :=
  k ≠ [] ∧ ∀ q ∈ ps, q.1 ≠ [] ∧ q.2 ≠ [] ∧ ¬ k <:+: q.2 ∧
    (∀ c ∈ q.2.head?.toList, c ∉ k) ∧ (∀ c ∈ q.2.getLast?.toList, c ∉ k)

/-- The entry `(k, a)` does not interfere with the other passes of `ps`:
other keys share no character with `k` (so they cannot consume its
occurrence) nor with `a` (so they cannot damage the inserted text). -/
def InsertableVal (ps : List Rep) (k a : List Char) : Prop :=
  a ≠ [] ∧ ∀ q ∈ ps, q.1 ≠ [] ∧
    (q.1 ≠ k → (∀ c ∈ k, c ∉ q.1) ∧ (∀ c ∈ a, c ∉ q.1))

instance (ps : List Rep) (k : List Char) : Decidable (EliminableKey ps k) := by
  unfold EliminableKey
  exact inferInstance

instance (ps : List Rep) (k a : List Char) : Decidable (InsertableVal ps k a) := by
  unfold InsertableVal
  exact inferInstance

/-- The `(value, alias)` pairs produced by the name-replacement loop, with
`n` the index of the next alias to be drawn. -/
def aliasPairs (gen : Nat → List Char) : Nat → List Entity → List Rep
  | _, [] => []
  | n, e :: es =>
    if isNameType e then (e.value, gen n) :: aliasPairs gen (n + 1) es
    else aliasPairs gen n es

/-! ## Helper lemmas about the substitution scanner -/

theorem pre_of_bool {x t : List Char} (h : x.isPrefixOf t = true) : x <+: t := by
  rwa [ List.isPrefixOf_iff_prefix] at h

theorem bool_of_pre {x t : List Char} (h : x <+: t) : x.isPrefixOf t = true := by
  rwa [ List.isPrefixOf_iff_prefix]

theorem infix_of_pre {x t : List Char} (h : x <+: t) : x <:+: t :=
  List.IsPrefix.isInfix h

theorem infix_append_right {x b : List Char} (a : List Char) (h : x <:+: b) : x <:+: a ++ b := by
  obtain ⟨s, u, rfl⟩ := h
  exact ⟨a ++ s, u, by simp⟩

theorem infix_cons_one {x t : List Char} (a : Char) (h : x <:+: t) : x <:+: a :: t :=
  infix_append_right [a] h

theorem infix_cons_cases {x t : List Char} {a : Char} (h : x <:+: a :: t) :
    x <+: a :: t ∨ x <:+: t := by
  rwa [ List.infix_cons_iff] at h

theorem infix_of_drop {x t : List Char} (n : Nat) (h : x <:+: t.drop n) : x <:+: t :=
  List.IsInfix.trans h ( List.IsSuffix.isInfix (List.drop_suffix n t))

theorem prefix_heads {x t : List Char} (hx : x ≠ []) (h : x <+: t) : x.head? = t.head? := by
  obtain ⟨u, rfl⟩ := h
  match x, hx with
  | c :: x', _ => rfl

theorem head_mem_of_ne {x : List Char} {c : Char} (hx : x ≠ []) (h : x.head? = some c) : c ∈ x := by
  match x, hx with
  | a :: x', _ =>
    simp only [List.head?_cons, Option.some.injEq] at h
    exact h ▸ List.mem_cons_self a x'

theorem two_mem_length_ne_one {α : Type} {a b : α} {l : List α} (ha : a ∈ l) (hb : b ∈ l)
    (hab : a ≠ b) : l.length ≠ 1 := by
  match l with
  | [] => cases ha
  | [x] =>
    simp only [List.mem_singleton] at ha hb
    exact absurd (ha.trans hb.symm) hab
  | x :: y :: t => simp

/-- Occurrence in an append: the occurrence lies in `a`, lies in `b`, or
spans the boundary and then contains the last element of `a`. -/
theorem infix_append_cases {k a b : List Char} (_hk : k ≠ []) (h : k <:+: a ++ b) :
    k <:+: a ∨ k <:+: b ∨ ∃ c, a.getLast? = some c ∧ c ∈ k := by
  induction a with
  | nil => exact Or.inr (Or.inl (by simpa using h))
  | cons x a' ih =>
    rcases infix_cons_cases (by simpa using h) with hpre | hrest
    · by_cases hlen : k.length ≤ (x :: a').length
      · exact Or.inl (infix_of_pre ((List.isPrefix_append_of_length hlen).mp (by simpa using hpre)))
      · push_neg at hlen
        have hax : (x :: a') <+: (x :: a') ++ b := List.prefix_append _ _
        have hsub : (x :: a') <+: k :=
          List.prefix_of_prefix_length_le hax (by simpa using hpre) (Nat.le_of_lt hlen)
        refine Or.inr (Or.inr ⟨(x :: a').getLast (by simp), ?_, ?_⟩)
        · exact List.getLast?_eq_getLast _ _
        · exact hsub.subset (List.getLast_mem _)
    · rcases ih hrest with h1 | h2 | h3
      · exact Or.inl (infix_cons_one x h1)
      · exact Or.inr (Or.inl h2)
      · obtain ⟨c, hc, hck⟩ := h3
        have ha' : a' ≠ [] := by
          intro he
          rw [he] at hc
          cases hc
        refine Or.inr (Or.inr ⟨c, ?_, hck⟩)
        rw [List.getLast?_cons, hc]
        rfl

theorem raFuel_nil (old new : List Char) (f : Nat) : raFuel old new f [] = [] := by
  cases f <;> rfl

theorem raFuel_fuel_eq (old new : List Char) (hold : old ≠ []) :
    ∀ f g t, t.length ≤ f → t.length ≤ g → raFuel old new f t = raFuel old new g t := by
  intro f
  induction f with
  | zero =>
    intro g t ht _
    have : t = [] := List.length_eq_zero.mp (Nat.le_zero.mp ht)
    subst this
    rw [raFuel_nil, raFuel_nil]
  | succ f ih =>
    intro g t ht hg
    match t with
    | [] => rw [raFuel_nil, raFuel_nil]
    | c :: rest =>
      match g, hg with
      | g + 1, hg =>
        simp only [raFuel]
        by_cases hp : old.isPrefixOf (c :: rest)
        · rw [if_pos hp, if_pos hp]
          have holdlen : 1 ≤ old.length := by
            cases old with
            | nil => exact absurd rfl hold
            | cons o os => simp
          have hd : ((c :: rest).drop old.length).length ≤ rest.length := by
            simp only [List.length_drop, List.length_cons]
            omega
          rw [ih g ((c :: rest).drop old.length)
            (Nat.le_trans hd (Nat.le_of_succ_le_succ ht))
            (Nat.le_trans hd (Nat.le_of_succ_le_succ hg))]
        · rw [if_neg hp, if_neg hp,
            ih g rest (Nat.le_of_succ_le_succ ht) (Nat.le_of_succ_le_succ hg)]

theorem pyReplace_ne (old new t : List Char) (hold : old ≠ []) :
    pyReplace old new t = raFuel old new t.length t := by
  simp [pyReplace, hold]

theorem pyReplace_nil (old new : List Char) (hold : old ≠ []) :
    pyReplace old new [] = [] := by
  rw [pyReplace_ne _ _ _ hold]
  rfl

theorem pyReplace_head_match {old t : List Char} (new : List Char) (hold : old ≠ [])
    (hp : old.isPrefixOf t = true) :
    pyReplace old new t = new ++ pyReplace old new (t.drop old.length) := by
  match t with
  | [] =>
    have := pre_of_bool hp
    have : old = [] := List.prefix_nil.mp this
    exact absurd this hold
  | c :: rest =>
    rw [pyReplace_ne _ _ _ hold, pyReplace_ne _ _ _ hold]
    show raFuel old new (rest.length + 1) (c :: rest) = _
    simp only [raFuel, if_pos hp]
    congr 1
    have holdlen : 1 ≤ old.length := by
      cases old with
      | nil => exact absurd rfl hold
      | cons o os => simp
    refine raFuel_fuel_eq old new hold _ _ _ ?_ (Nat.le_refl _)
    simp only [List.length_drop, List.length_cons]
    omega

theorem pyReplace_head_keep {old : List Char} (new : List Char) {c : Char} {rest : List Char}
    (hold : old ≠ []) (hp : ¬ old.isPrefixOf (c :: rest) = true) :
    pyReplace old new (c :: rest) = c :: pyReplace old new rest := by
  rw [pyReplace_ne _ _ _ hold, pyReplace_ne _ _ _ hold]
  show raFuel old new (rest.length + 1) (c :: rest) = _
  simp only [raFuel, if_neg hp]

/-- If a nonempty slice `k.drop i` of some word is a prefix of the scanner's
output, it was already a prefix of the input (the replacement's first
character does not occur in `k`). -/
theorem raFuel_slice (old new k : List Char) (hnew : new ≠ [])
    (hhd : ∀ c, new.head? = some c → c ∉ k) :
    ∀ f t i, t.length ≤ f → k.drop i ≠ [] → k.drop i <+: raFuel old new f t →
      k.drop i <+: t := by
  intro f
  induction f with
  | zero =>
    intro t i _ _ hp
    exact hp
  | succ f ih =>
    intro t i ht hne hp
    match t with
    | [] =>
      rw [raFuel_nil] at hp
      exact absurd (List.prefix_nil.mp hp) hne
    | c :: rest =>
      by_cases hmatch : old.isPrefixOf (c :: rest)
      · simp only [raFuel, if_pos hmatch] at hp
        match new, hnew with
        | n :: ns, _ =>
          have hh : (k.drop i).head? = some n := by
            rw [prefix_heads hne hp]
            rfl
          have hnk : n ∈ k := List.drop_subset i k (head_mem_of_ne hne hh)
          exact absurd hnk (hhd n rfl)
      · simp only [raFuel, if_neg hmatch] at hp
        match hs : k.drop i, hne with
        | sh :: st, _ =>
          rw [hs] at hp
          rw [List.cons_prefix_cons] at hp
          obtain ⟨rfl, hst⟩ := hp
          have htail : st = k.drop (i + 1) := by
            have h2 := List.tail_drop k i
            rw [hs] at h2
            simpa using h2
          by_cases hstn : st = []
          · subst hstn
            simp [List.cons_prefix_cons]
          · have := ih rest (i + 1) (Nat.le_of_succ_le_succ ht) (htail ▸ hstn) (htail ▸ hst)
            rw [List.cons_prefix_cons]
            exact ⟨rfl, htail ▸ this⟩

/-- Complete elimination: after replacing `old` by `new`, the word `k` does
not occur, provided `k` is the replaced word itself or was absent before,
and `k` does not occur in `new` nor contains its boundary characters. -/
theorem raFuel_gone (old new k : List Char) (hold : old ≠ []) (hk : k ≠ []) (hnew : new ≠ [])
    (hninf : ¬ k <:+: new) (hhd : ∀ c, new.head? = some c → c ∉ k)
    (hlast : ∀ c, new.getLast? = some c → c ∉ k) :
    ∀ f t, t.length ≤ f → (k = old ∨ ¬ k <:+: t) → ¬ k <:+: raFuel old new f t := by
  intro f
  induction f with
  | zero =>
    intro t ht _ hcon
    have : t = [] := List.length_eq_zero.mp (Nat.le_zero.mp ht)
    subst this
    exact hk (List.infix_nil.mp hcon)
  | succ f ih =>
    intro t ht hd hcon
    match t with
    | [] =>
      rw [raFuel_nil] at hcon
      exact hk (List.infix_nil.mp hcon)
    | c :: rest =>
      have holdlen : 1 ≤ old.length := by
        cases old with
        | nil => exact absurd rfl hold
        | cons o os => simp
      by_cases hmatch : old.isPrefixOf (c :: rest)
      · simp only [raFuel, if_pos hmatch] at hcon
        rcases infix_append_cases hk hcon with h1 | h2 | h3
        · exact hninf h1
        · refine ih ((c :: rest).drop old.length) ?_ ?_ h2
          · simp only [List.length_drop, List.length_cons]
            simp only [List.length_cons] at ht
            omega
          · rcases hd with rfl | hab
            · exact Or.inl rfl
            · exact Or.inr (fun hx => hab (infix_of_drop _ hx))
        · obtain ⟨c', hc', hck⟩ := h3
          exact (hlast c' hc') hck
      · simp only [raFuel, if_neg hmatch] at hcon
        rcases infix_cons_cases hcon with h1 | h2
        · have hpre : k <+: c :: rest := by
            have := raFuel_slice old new k hnew hhd (f + 1) (c :: rest) 0 ht
              (by simpa using hk)
            simp only [List.drop_zero] at this
            refine this ?_
            simpa only [raFuel, if_neg hmatch] using h1
          rcases hd with rfl | hab
          · exact hmatch (bool_of_pre hpre)
          · exact hab (infix_of_pre hpre)
        · refine ih rest (Nat.le_of_succ_le_succ ht) ?_ h2
          rcases hd with rfl | hab
          · exact Or.inl rfl
          · exact Or.inr (fun hx => hab (infix_cons_one c hx))

/-- If `old` occurs in the input, `new` occurs in the scanner's output. -/
theorem raFuel_puts (old new : List Char) (hold : old ≠ []) :
    ∀ f t, t.length ≤ f → old <:+: t → new <:+: raFuel old new f t := by
  intro f
  induction f with
  | zero =>
    intro t ht hocc
    have : t = [] := List.length_eq_zero.mp (Nat.le_zero.mp ht)
    subst this
    exact absurd (List.infix_nil.mp hocc) hold
  | succ f ih =>
    intro t ht hocc
    match t with
    | [] => exact absurd (List.infix_nil.mp hocc) hold
    | c :: rest =>
      by_cases hmatch : old.isPrefixOf (c :: rest)
      · simp only [raFuel, if_pos hmatch]
        exact infix_of_pre (List.prefix_append _ _)
      · simp only [raFuel, if_neg hmatch]
        rcases infix_cons_cases hocc with h1 | h2
        · exact absurd (bool_of_pre h1) hmatch
        · exact infix_cons_one c (ih rest (Nat.le_of_succ_le_succ ht) h2)

/-- pyReplace-level elimination. -/
theorem replace_gone (old new k : List Char) (hold : old ≠ []) (hk : k ≠ []) (hnew : new ≠ [])
    (hninf : ¬ k <:+: new) (hhd : ∀ c, new.head? = some c → c ∉ k)
    (hlast : ∀ c, new.getLast? = some c → c ∉ k) (t : List Char)
    (hd : k = old ∨ ¬ k <:+: t) : ¬ k <:+: pyReplace old new t := by
  rw [pyReplace_ne _ _ _ hold]
  exact raFuel_gone old new k hold hk hnew hninf hhd hlast t.length t (Nat.le_refl _) hd

/-- pyReplace-level insertion. -/
theorem replace_puts (old new t : List Char) (hold : old ≠ []) (hocc : old <:+: t) :
    new <:+: pyReplace old new t := by
  rw [pyReplace_ne _ _ _ hold]
  exact raFuel_puts old new hold t.length t (Nat.le_refl _) hocc

/-- The scanner never matches inside a block `u` free of the pattern's first
character; such a block passes through verbatim. -/
theorem replace_skip (old new : List Char) (hold : old ≠ []) :
    ∀ u v, (∀ c ∈ u, old.head? ≠ some c) →
      pyReplace old new (u ++ v) = u ++ pyReplace old new v := by
  intro u
  induction u with
  | nil => simp
  | cons c u' ih =>
    intro v hu
    have hng : ¬ old.isPrefixOf (c :: (u' ++ v)) = true := by
      intro hp
      have := prefix_heads hold (pre_of_bool hp)
      exact hu c (List.mem_cons_self c u') (by rw [this]; rfl)
    rw [List.cons_append, pyReplace_head_keep new hold hng, ih v
      (fun d hd => hu d (List.mem_cons_of_mem c hd))]
    rfl

/-- Preservation: an occurrence of `x` survives the replacement of a word
`old` sharing no character with `x`. -/
theorem raFuel_keeps (old new x : List Char) (hold : old ≠ []) (hx : x ≠ [])
    (hdisj : ∀ c ∈ x, c ∉ old) :
    ∀ f t, t.length ≤ f → x <:+: t → x <:+: raFuel old new f t := by
  intro f
  induction f with
  | zero =>
    intro t _ hocc
    exact hocc
  | succ f ih =>
    intro t ht hocc
    match t with
    | [] => exact absurd (List.infix_nil.mp hocc) hx
    | c :: rest =>
      have holdlen : 1 ≤ old.length := by
        cases old with
        | nil => exact absurd rfl hold
        | cons o os => simp
      by_cases hmatch : old.isPrefixOf (c :: rest)
      · simp only [raFuel, if_pos hmatch]
        obtain ⟨w, hw⟩ := pre_of_bool hmatch
        have hdropw : (c :: rest).drop old.length = w := by
          rw [← hw, List.drop_left]
        have hocc' : x <:+: old ++ w := by rwa [hw]
        rcases infix_append_cases hx hocc' with h1 | h2 | h3
        · obtain ⟨d, hd⟩ := List.exists_mem_of_ne_nil x hx
          exact absurd (h1.subset hd) (hdisj d hd)
        · have hwlen : w.length ≤ f := by
            have : old.length + w.length = rest.length + 1 := by
              have := congrArg List.length hw
              simpa using this
            simp only [List.length_cons] at ht
            omega
          have := ih w hwlen h2
          rw [hdropw]
          exact infix_append_right new this
        · obtain ⟨c', hc', hcx⟩ := h3
          have : c' ∈ old := by
            rw [List.getLast?_eq_getLast old hold] at hc'
            cases hc'
            exact List.getLast_mem hold
          exact absurd this (hdisj c' hcx)
      · simp only [raFuel, if_neg hmatch]
        rcases infix_cons_cases hocc with h1 | h2
        · match x, hx with
          | xh :: xt, _ =>
            rw [List.cons_prefix_cons] at h1
            obtain ⟨rfl, hxt⟩ := h1
            obtain ⟨w, hw⟩ := hxt
            have hfe : raFuel old new f rest = pyReplace old new rest := by
              rw [pyReplace_ne _ _ _ hold]
              exact raFuel_fuel_eq old new hold f rest.length rest
                (Nat.le_of_succ_le_succ ht) (Nat.le_refl _)
            have hskip : pyReplace old new (xt ++ w) = xt ++ pyReplace old new w := by
              refine replace_skip old new hold xt w ?_
              intro d hd hhead
              exact hdisj d (List.mem_cons_of_mem xh hd) (head_mem_of_ne hold hhead)
            rw [hfe, ← hw, hskip]
            refine infix_of_pre ?_
            rw [List.cons_prefix_cons]
            exact ⟨rfl, List.prefix_append xt _⟩
        · exact infix_cons_one c (ih rest (Nat.le_of_succ_le_succ ht) h2)

/-- pyReplace-level preservation. -/
theorem replace_keeps (old new x t : List Char) (hold : old ≠ []) (hx : x ≠ [])
    (hdisj : ∀ c ∈ x, c ∉ old) (hocc : x <:+: t) : x <:+: pyReplace old new t := by
  rw [pyReplace_ne _ _ _ hold]
  exact raFuel_keeps old new x hold hx hdisj t.length t (Nat.le_refl _) hocc

/-! ## Multi-pass lemmas -/

theorem applyPasses_nil (t : List Char) : applyPasses t [] = t := rfl

theorem applyPasses_cons (t : List Char) (p : Rep) (ps : List Rep) :
    applyPasses t (p :: ps) = applyPasses (pyReplace p.1 p.2 t) ps := rfl

theorem opt_head_of_toList {o : Option Char} {P : Char → Prop}
    (h : ∀ c ∈ o.toList, P c) : ∀ c, o = some c → P c := by
  intro c hc
  subst hc
  exact h c (by simp)

theorem passes_keep_gone :
    ∀ ps t k, EliminableKey ps k → ¬ k <:+: t → ¬ k <:+: applyPasses t ps := by
  intro ps
  induction ps with
  | nil =>
    intro t k _ habs
    exact habs
  | cons p ps' ih =>
    intro t k hel habs
    obtain ⟨hk, hall⟩ := hel
    obtain ⟨h1, h2, h3, h4, h5⟩ := hall p (List.mem_cons_self p ps')
    rw [applyPasses_cons]
    refine ih (pyReplace p.1 p.2 t) k ⟨hk, fun q hq => hall q (List.mem_cons_of_mem p hq)⟩ ?_
    exact replace_gone p.1 p.2 k h1 hk h2 h3 (opt_head_of_toList h4) (opt_head_of_toList h5)
      t (Or.inr habs)

theorem passes_make_gone :
    ∀ ps t k a, EliminableKey ps k → (k, a) ∈ ps → ¬ k <:+: applyPasses t ps := by
  intro ps
  induction ps with
  | nil =>
    intro t k a _ hmem
    cases hmem
  | cons p ps' ih =>
    intro t k a hel hmem
    obtain ⟨hk, hall⟩ := hel
    rw [applyPasses_cons]
    by_cases hp1 : p.1 = k
    · obtain ⟨h1, h2, h3, h4, h5⟩ := hall p (List.mem_cons_self p ps')
      refine passes_keep_gone ps' _ k ⟨hk, fun q hq => hall q (List.mem_cons_of_mem p hq)⟩ ?_
      exact replace_gone p.1 p.2 k h1 hk h2 h3 (opt_head_of_toList h4) (opt_head_of_toList h5)
        t (Or.inl hp1.symm)
    · rcases List.mem_cons.mp hmem with rfl | hmem'
      · exact absurd rfl hp1
      · exact ih _ k a ⟨hk, fun q hq => hall q (List.mem_cons_of_mem p hq)⟩ hmem'

theorem passes_keep_occ :
    ∀ ps t x, x ≠ [] → (∀ q ∈ ps, q.1 ≠ [] ∧ ∀ c ∈ x, c ∉ q.1) → x <:+: t →
      x <:+: applyPasses t ps := by
  intro ps
  induction ps with
  | nil =>
    intro t x _ _ hocc
    exact hocc
  | cons p ps' ih =>
    intro t x hx hall hocc
    obtain ⟨h1, h2⟩ := hall p (List.mem_cons_self p ps')
    rw [applyPasses_cons]
    exact ih _ x hx (fun q hq => hall q (List.mem_cons_of_mem p hq))
      (replace_keeps p.1 p.2 x t h1 hx h2 hocc)

theorem passes_put_val :
    ∀ ps t k a, k ≠ [] → InsertableVal ps k a → (ps.map Prod.fst).Nodup → (k, a) ∈ ps →
      k <:+: t → a <:+: applyPasses t ps := by
  intro ps
  induction ps with
  | nil =>
    intro t k a _ _ _ hmem
    cases hmem
  | cons p ps' ih =>
    intro t k a hk hins hnd hmem hocc
    obtain ⟨ha, hall⟩ := hins
    have hndtail : (ps'.map Prod.fst).Nodup := (List.nodup_cons.mp hnd).2
    have hhead : p.1 ∉ ps'.map Prod.fst := (List.nodup_cons.mp hnd).1
    rw [applyPasses_cons]
    by_cases hp1 : p.1 = k
    · have hpa : p = (k, a) := by
        rcases List.mem_cons.mp hmem with h | h
        · exact h.symm
        · have hkm : k ∈ ps'.map Prod.fst := by
            have h2 := List.mem_map_of_mem Prod.fst h
            simpa using h2
          rw [hp1] at hhead
          exact absurd hkm hhead
      subst hpa
      refine passes_keep_occ ps' _ a ha ?_ (replace_puts k a t hk hocc)
      intro q hq
      have hqmem := List.mem_cons_of_mem (k, a) hq
      obtain ⟨hq1, hq2⟩ := hall q hqmem
      have hqk : q.1 ≠ k := by
        intro he
        exact hhead (he ▸ (List.mem_map_of_mem Prod.fst hq : q.1 ∈ ps'.map Prod.fst))
      exact ⟨hq1, (hq2 hqk).2⟩
    · obtain ⟨h1, h2⟩ := hall p (List.mem_cons_self p ps')
      obtain ⟨hdk, _⟩ := h2 hp1
      have hmem' : (k, a) ∈ ps' := by
        rcases List.mem_cons.mp hmem with h | h
        · exact absurd (congrArg Prod.fst h.symm) hp1
        · exact h
      refine ih _ k a hk ⟨ha, fun q hq => hall q (List.mem_cons_of_mem p hq)⟩ hndtail hmem' ?_
      exact replace_keeps p.1 p.2 k t h1 hk hdk hocc

/-! ## Sorting transfer -/

theorem insertDesc_perm (p : Rep) (l : List Rep) : List.Perm (insertDesc p l) (p :: l) := by
  induction l with
  | nil => exact List.Perm.refl _
  | cons q qs ih =>
    by_cases h : q.1.length ≤ p.1.length
    · simp only [insertDesc, if_pos h]
      exact List.Perm.refl _
    · simp only [insertDesc, if_neg h]
      exact (ih.cons q).trans (List.Perm.swap p q qs)

theorem sortDesc_perm (l : List Rep) : List.Perm (sortDesc l) l := by
  induction l with
  | nil => exact List.Perm.refl _
  | cons p ps ih => exact (insertDesc_perm p (sortDesc ps)).trans (ih.cons p)

theorem mem_sortDesc {x : Rep} {l : List Rep} : x ∈ sortDesc l ↔ x ∈ l :=
  (sortDesc_perm l).mem_iff

theorem sortDesc_keys_nodup {l : List Rep} (h : (l.map Prod.fst).Nodup) :
    ((sortDesc l).map Prod.fst).Nodup :=
  (((sortDesc_perm l).map Prod.fst).nodup_iff).mpr h

theorem sortDesc_elim {l : List Rep} {k : List Char} (h : EliminableKey l k) :
    EliminableKey (sortDesc l) k :=
  ⟨h.1, fun q hq => h.2 q (mem_sortDesc.mp hq)⟩

theorem sortDesc_ins {l : List Rep} {k a : List Char} (h : InsertableVal l k a) :
    InsertableVal (sortDesc l) k a :=
  ⟨h.1, fun q hq => h.2 q (mem_sortDesc.mp hq)⟩

/-! ## `_multi_replace` facts -/

theorem multi_gone {reps : List Rep} {k a : List Char} (t : List Char)
    (hmem : (k, a) ∈ reps) (hel : EliminableKey reps k) :
    ¬ k <:+: multi_replace t reps := by
  have hne : reps ≠ [] := by
    intro h
    rw [h] at hmem
    cases hmem
  rw [multi_replace, if_neg hne]
  exact passes_make_gone (sortDesc reps) t k a (sortDesc_elim hel) (mem_sortDesc.mpr hmem)

theorem multi_keep_absent {reps : List Rep} {k : List Char} (t : List Char)
    (hel : EliminableKey reps k) (habs : ¬ k <:+: t) :
    ¬ k <:+: multi_replace t reps := by
  by_cases hne : reps = []
  · rw [multi_replace, if_pos hne]
    exact habs
  · rw [multi_replace, if_neg hne]
    exact passes_keep_gone (sortDesc reps) t k (sortDesc_elim hel) habs

theorem multi_put {reps : List Rep} {k a : List Char} (t : List Char) (hk : k ≠ [])
    (hins : InsertableVal reps k a) (hnd : (reps.map Prod.fst).Nodup)
    (hmem : (k, a) ∈ reps) (hocc : k <:+: t) :
    a <:+: multi_replace t reps := by
  have hne : reps ≠ [] := by
    intro h
    rw [h] at hmem
    cases hmem
  rw [multi_replace, if_neg hne]
  exact passes_put_val (sortDesc reps) t k a hk (sortDesc_ins hins) (sortDesc_keys_nodup hnd)
    (mem_sortDesc.mpr hmem) hocc

theorem multi_keep_occ {reps : List Rep} {x : List Char} (t : List Char) (hx : x ≠ [])
    (hall : ∀ q ∈ reps, q.1 ≠ [] ∧ ∀ c ∈ x, c ∉ q.1) (hocc : x <:+: t) :
    x <:+: multi_replace t reps := by
  by_cases hne : reps = []
  · rw [multi_replace, if_pos hne]
    exact hocc
  · rw [multi_replace, if_neg hne]
    exact passes_keep_occ (sortDesc reps) t x hx
      (fun q hq => hall q (mem_sortDesc.mp hq)) hocc

/-! ## Mask-map and name-map characterizations -/

theorem assocSet_append {m : List Rep} {k : List Char} (v : List Char)
    (h : ∀ p ∈ m, p.1 ≠ k) : assocSet m k v = m ++ [(k, v)] := by
  rw [assocSet, if_neg]
  simp only [List.any_eq_true, decide_eq_true_eq, not_exists, not_and]
  intro p hp
  exact h p hp

theorem maskPairs_aux (es : List Entity) :
    ∀ m, (es.map Entity.value).Nodup →
      (∀ e ∈ es, e.etype ∉ IMMUNE_TYPES → ∀ p ∈ m, p.1 ≠ e.value) →
      es.foldl
        (fun m e =>
          if e.etype ∈ IMMUNE_TYPES then m else assocSet m e.value (placeholder e.etype)) m =
      m ++ (es.filter (fun e => decide (e.etype ∉ IMMUNE_TYPES))).map
        (fun e => (e.value, placeholder e.etype)) := by
  induction es with
  | nil =>
    intro m _ _
    simp
  | cons e es' ih =>
    intro m hnd hfresh
    have hndtail : (es'.map Entity.value).Nodup := by
      simp only [List.map_cons, List.nodup_cons] at hnd
      exact hnd.2
    have hvnotin : e.value ∉ es'.map Entity.value := by
      simp only [List.map_cons, List.nodup_cons] at hnd
      exact hnd.1
    by_cases him : e.etype ∈ IMMUNE_TYPES
    · rw [List.foldl_cons, if_pos him, List.filter_cons_of_neg (by simpa using him)]
      exact ih m hndtail (fun e' he' => hfresh e' (List.mem_cons_of_mem e he'))
    · rw [List.foldl_cons, if_neg him,
        assocSet_append _ (fun p hp => hfresh e (List.mem_cons_self e es') him p hp),
        List.filter_cons_of_pos (by simpa using him)]
      rw [ih (m ++ [(e.value, placeholder e.etype)]) hndtail ?_]
      · simp
      · intro e' he' him' p hp
        rcases List.mem_append.mp hp with h | h
        · exact hfresh e' (List.mem_cons_of_mem e he') him' p h
        · simp only [List.mem_singleton] at h
          subst h
          intro hcon
          have hcon2 : e.value = e'.value := hcon
          rw [hcon2] at hvnotin
          exact hvnotin (List.mem_map_of_mem Entity.value he')

theorem maskPairs_eq {es : List Entity} (hnd : (es.map Entity.value).Nodup) :
    maskPairs es =
      (es.filter (fun e => decide (e.etype ∉ IMMUNE_TYPES))).map
        (fun e => (e.value, placeholder e.etype)) := by
  have := maskPairs_aux es [] hnd (by intro e _ _ p hp; cases hp)
  simpa [maskPairs] using this

theorem mem_maskPairs {es : List Entity} {e : Entity} (hnd : (es.map Entity.value).Nodup)
    (he : e ∈ es) (him : e.etype ∉ IMMUNE_TYPES) :
    (e.value, placeholder e.etype) ∈ maskPairs es := by
  rw [maskPairs_eq hnd]
  exact List.mem_map_of_mem _ (List.mem_filter.mpr ⟨he, by simpa using him⟩)

theorem maskPairs_keys {es : List Entity} (hnd : (es.map Entity.value).Nodup) :
    (maskPairs es).map Prod.fst =
      (es.filter (fun e => decide (e.etype ∉ IMMUNE_TYPES))).map Entity.value := by
  rw [maskPairs_eq hnd, List.map_map]
  rfl

theorem maskPairs_keys_nodup {es : List Entity} (hnd : (es.map Entity.value).Nodup) :
    ((maskPairs es).map Prod.fst).Nodup := by
  rw [maskPairs_keys hnd]
  exact List.Nodup.sublist (List.Sublist.map Entity.value (List.filter_sublist es)) hnd

theorem immune_not_key {es : List Entity} {e : Entity} (hnd : (es.map Entity.value).Nodup)
    (he : e ∈ es) (him : e.etype ∈ IMMUNE_TYPES) :
    e.value ∉ (maskPairs es).map Prod.fst := by
  rw [maskPairs_keys hnd]
  intro hcon
  obtain ⟨e', he', hve⟩ := List.mem_map.mp hcon
  obtain ⟨he'mem, him'⟩ := List.mem_filter.mp he'
  have heq : e' = e := List.inj_on_of_nodup_map hnd he'mem he hve
  subst heq
  exact absurd him (by simpa using him')

theorem aliasPairs_keys (gen : Nat → List Char) :
    ∀ es n, (aliasPairs gen n es).map Prod.fst = (es.filter isNameType).map Entity.value := by
  intro es
  induction es with
  | nil =>
    intro n
    rfl
  | cons e es' ih =>
    intro n
    by_cases hn : isNameType e
    · simp only [aliasPairs, if_pos hn, List.filter_cons_of_pos hn, List.map_cons]
      rw [ih (n + 1)]
    · simp only [aliasPairs, if_neg hn, List.filter_cons_of_neg (by simpa using hn)]
      exact ih n

theorem nameFold_eq (gen : Nat → List Char) :
    ∀ (es : List Entity) (reps rmap : List Rep) (n : Nat),
      ((es.filter isNameType).map Entity.value).Nodup →
      (∀ e ∈ es, isNameType e → (∀ p ∈ reps, p.1 ≠ e.value) ∧ (∀ p ∈ rmap, p.1 ≠ e.value)) →
      es.foldl (nameStep gen) (reps, rmap, n) =
        (reps ++ aliasPairs gen n es, rmap ++ aliasPairs gen n es,
          n + (es.filter isNameType).length) := by
  intro es
  induction es with
  | nil =>
    intro reps rmap n _ _
    simp [aliasPairs]
  | cons e es' ih =>
    intro reps rmap n hnd hfresh
    by_cases hn : isNameType e
    · have hvnotin : e.value ∉ (es'.filter isNameType).map Entity.value := by
        rw [List.filter_cons_of_pos hn, List.map_cons, List.nodup_cons] at hnd
        exact hnd.1
      have hndtail : ((es'.filter isNameType).map Entity.value).Nodup := by
        rw [List.filter_cons_of_pos hn, List.map_cons, List.nodup_cons] at hnd
        exact hnd.2
      have hstep : nameStep gen (reps, rmap, n) e =
          (reps ++ [(e.value, gen n)], rmap ++ [(e.value, gen n)], n + 1) := by
        rw [nameStep, if_pos hn]
        have h1 := (hfresh e (List.mem_cons_self e es') hn).1
        have h2 := (hfresh e (List.mem_cons_self e es') hn).2
        rw [assocSet_append _ (fun p hp hpk => h1 p hp hpk),
          assocSet_append _ (fun p hp hpk => h2 p hp hpk)]
      rw [List.foldl_cons, hstep, ih (reps ++ [(e.value, gen n)]) (rmap ++ [(e.value, gen n)])
        (n + 1) hndtail ?_]
      · simp only [aliasPairs, if_pos hn, List.filter_cons_of_pos hn, List.length_cons]
        refine Prod.ext ?_ (Prod.ext ?_ ?_) <;> simp
        omega
      · intro e' he' hn'
        constructor
        · intro p hp
          rcases List.mem_append.mp hp with h | h
          · exact (hfresh e' (List.mem_cons_of_mem e he') hn').1 p h
          · simp only [List.mem_singleton] at h
            subst h
            intro hcon
            have hcon2 : e.value = e'.value := hcon
            rw [hcon2] at hvnotin
            exact hvnotin (List.mem_map_of_mem Entity.value (List.mem_filter.mpr ⟨he', hn'⟩))
        · intro p hp
          rcases List.mem_append.mp hp with h | h
          · exact (hfresh e' (List.mem_cons_of_mem e he') hn').2 p h
          · simp only [List.mem_singleton] at h
            subst h
            intro hcon
            have hcon2 : e.value = e'.value := hcon
            rw [hcon2] at hvnotin
            exact hvnotin (List.mem_map_of_mem Entity.value (List.mem_filter.mpr ⟨he', hn'⟩))
    · have hstep : nameStep gen (reps, rmap, n) e = (reps, rmap, n) := by
        rw [nameStep, if_neg hn]
      rw [List.foldl_cons, hstep]
      rw [List.filter_cons_of_neg (by simpa using hn)] at hnd ⊢
      simp only [aliasPairs, if_neg hn]
      exact ih reps rmap n hnd (fun e' he' => hfresh e' (List.mem_cons_of_mem e he'))

theorem nameFold_filter (gen : Nat → List Char) :
    ∀ (es : List Entity) (acc : List Rep × List Rep × Nat),
      es.foldl (nameStep gen) acc = (es.filter isNameType).foldl (nameStep gen) acc := by
  intro es
  induction es with
  | nil =>
    intro acc
    rfl
  | cons e es' ih =>
    intro acc
    by_cases hn : isNameType e
    · rw [List.foldl_cons, List.filter_cons_of_pos hn, List.foldl_cons]
      exact ih _
    · rw [List.foldl_cons, List.filter_cons_of_neg (by simpa using hn)]
      have hstep : nameStep gen acc e = acc := by
        rw [nameStep, if_neg hn]
      rw [hstep]
      exact ih acc

/-! ## Grouping and merge lemmas -/

/-- Invariant tying the `value_to_entities` accumulator to the processed
entities. -/
def GroupRep (done : List Entity) (acc : List (List Char × List Entity)) : Prop :=
  (acc.map Prod.fst).Nodup ∧
  (∀ v, v ∈ acc.map Prod.fst ↔ ∃ e ∈ done, e.value = v) ∧
  (∀ p ∈ acc, p.2 = done.filter (fun x => decide (x.value = p.1)))

theorem addToGroup_rep {done : List Entity} {acc : List (List Char × List Entity)}
    (e : Entity) (h : GroupRep done acc) : GroupRep (done ++ [e]) (addToGroup acc e) := by
  obtain ⟨hnd, hmem, hgrp⟩ := h
  by_cases hin : e.value ∈ acc.map Prod.fst
  · have hany : acc.any (fun g => g.1 = e.value) = true := by
      obtain ⟨p, hp, hpv⟩ := List.mem_map.mp hin
      exact List.any_eq_true.mpr ⟨p, hp, by simpa using hpv⟩
    rw [addToGroup, if_pos hany]
    have hfst : (acc.map (fun g => if g.1 = e.value then (g.1, g.2 ++ [e]) else g)).map Prod.fst
        = acc.map Prod.fst := by
      rw [List.map_map]
      refine List.map_congr_left ?_
      intro p _
      by_cases hp : p.1 = e.value
      · simp [hp]
      · simp [hp]
    refine ⟨by rw [hfst]; exact hnd, ?_, ?_⟩
    · intro v
      rw [hfst, hmem v]
      constructor
      · rintro ⟨e', he', hv⟩
        exact ⟨e', List.mem_append_left _ he', hv⟩
      · rintro ⟨e', he', hv⟩
        rcases List.mem_append.mp he' with h | h
        · exact ⟨e', h, hv⟩
        · simp only [List.mem_singleton] at h
          subst h
          subst hv
          exact (hmem e'.value).mp hin
    · intro p hp
      obtain ⟨q, hq, hqp⟩ := List.mem_map.mp hp
      by_cases hqv : q.1 = e.value
      · rw [if_pos hqv] at hqp
        subst hqp
        simp only
        rw [List.filter_append, hgrp q hq]
        simp [hqv]
      · rw [if_neg hqv] at hqp
        subst hqp
        rw [List.filter_append, hgrp q hq]
        have : [e].filter (fun x => decide (x.value = q.1)) = [] := by
          simp only [List.filter_eq_nil_iff]
          intro a ha
          simp only [List.mem_singleton] at ha
          subst ha
          simpa using fun hc => hqv hc.symm
        rw [this, List.append_nil]
  · have hany : ¬ acc.any (fun g => g.1 = e.value) = true := by
      intro hc
      obtain ⟨p, hp, hpv⟩ := List.any_eq_true.mp hc
      exact hin (List.mem_map.mpr ⟨p, hp, by simpa using hpv⟩)
    rw [addToGroup, if_neg hany]
    refine ⟨?_, ?_, ?_⟩
    · rw [List.map_append]
      rw [List.nodup_append]
      refine ⟨hnd, List.nodup_singleton _, ?_⟩
      intro v hv hv'
      simp only [List.map_cons, List.map_nil, List.mem_singleton] at hv'
      subst hv'
      exact hin hv
    · intro v
      constructor
      · intro hv
        rw [List.map_append, List.mem_append] at hv
        rcases hv with hv | hv
        · obtain ⟨e', he', hv'⟩ := (hmem v).mp hv
          exact ⟨e', List.mem_append_left _ he', hv'⟩
        · simp only [List.map_cons, List.map_nil, List.mem_singleton] at hv
          subst hv
          exact ⟨e, List.mem_append_right _ (List.mem_singleton_self e), rfl⟩
      · rintro ⟨e', he', hv⟩
        rw [List.map_append, List.mem_append]
        rcases List.mem_append.mp he' with h | h
        · exact Or.inl ((hmem v).mpr ⟨e', h, hv⟩)
        · simp only [List.mem_singleton] at h
          subst h
          subst hv
          exact Or.inr (by simp)
    · intro p hp
      rcases List.mem_append.mp hp with h | h
      · rw [List.filter_append, hgrp p h]
        have : [e].filter (fun x => decide (x.value = p.1)) = [] := by
          simp only [List.filter_eq_nil_iff]
          intro a ha
          simp only [List.mem_singleton] at ha
          subst ha
          intro hc
          simp only [decide_eq_true_eq] at hc
          exact hin (hc ▸ List.mem_map_of_mem Prod.fst h)
        rw [this, List.append_nil]
      · simp only [List.mem_singleton] at h
        subst h
        simp only
        rw [List.filter_append]
        have h1 : done.filter (fun x => decide (x.value = e.value)) = [] := by
          simp only [List.filter_eq_nil_iff]
          intro a ha hc
          simp only [decide_eq_true_eq] at hc
          exact hin ((hmem e.value).mpr ⟨a, ha, hc⟩)
        have h2 : [e].filter (fun x => decide (x.value = e.value)) = [e] := by
          simp
        rw [h1, h2, List.nil_append]

theorem groupByValue_fold (es : List Entity) :
    ∀ (done : List Entity) (acc : List (List Char × List Entity)), GroupRep done acc →
      GroupRep (done ++ es) (es.foldl addToGroup acc) := by
  induction es with
  | nil =>
    intro done acc h
    simpa using h
  | cons e es' ih =>
    intro done acc h
    have h1 := addToGroup_rep e h
    have h2 := ih (done ++ [e]) (addToGroup acc e) h1
    rw [List.foldl_cons]
    rwa [List.append_assoc, List.singleton_append] at h2

theorem groupByValue_rep (es : List Entity) : GroupRep es (groupByValue es) := by
  have := groupByValue_fold es [] [] ⟨List.nodup_nil, by simp, by simp⟩
  simpa [groupByValue] using this

theorem mergeGroup_value {v : List Char} {g : List Entity}
    (hall : ∀ e ∈ g, e.value = v) (hne : g ≠ []) : (mergeGroup v g).value = v := by
  rw [mergeGroup]
  by_cases h1 : g.length = 1
  · rw [if_pos h1]
    match g, hne with
    | e :: g', _ => exact hall e (List.mem_cons_self e g')
  · rw [if_neg h1]
    have h2 : ∀ o : Option (List Char),
        (match o with
          | some t => ({ etype := t, value := v } : Entity)
          | none => { etype := mostCommon (g.map Entity.etype), value := v }).value = v := by
      intro o
      cases o <;> rfl
    exact h2 _

theorem merge_values_eq_keys (es : List Entity) :
    (merge_entities es).map Entity.value = (groupByValue es).map Prod.fst := by
  obtain ⟨hnd, hmem, hgrp⟩ := groupByValue_rep es
  rw [merge_entities, List.map_map]
  refine List.map_congr_left ?_
  intro p hp
  have hval : ∀ e ∈ p.2, e.value = p.1 := by
    intro e he
    rw [hgrp p hp] at he
    simpa using (List.mem_filter.mp he).2
  have hpe : p.2 ≠ [] := by
    intro hc
    have hkey : p.1 ∈ (groupByValue es).map Prod.fst := List.mem_map_of_mem Prod.fst hp
    obtain ⟨e, he, hev⟩ := (hmem p.1).mp hkey
    have : e ∈ p.2 := by
      rw [hgrp p hp]
      exact List.mem_filter.mpr ⟨he, by simpa using hev⟩
    rw [hc] at this
    cases this
  exact mergeGroup_value hval hpe

theorem merge_values_nodup (es : List Entity) :
    ((merge_entities es).map Entity.value).Nodup := by
  rw [merge_values_eq_keys]
  exact (groupByValue_rep es).1

theorem merge_values_from_input (es : List Entity) :
    ∀ e' ∈ merge_entities es, ∃ e ∈ es, e.value = e'.value := by
  intro e' he'
  have : e'.value ∈ (merge_entities es).map Entity.value := List.mem_map_of_mem Entity.value he'
  rw [merge_values_eq_keys] at this
  exact ((groupByValue_rep es).2.1 e'.value).mp this

theorem merge_singleton_passthrough (es : List Entity) (v : List Char) (e : Entity)
    (hf : es.filter (fun x => decide (x.value = v)) = [e]) : e ∈ merge_entities es := by
  obtain ⟨hnd, hmem, hgrp⟩ := groupByValue_rep es
  have hemem : e ∈ es := by
    have : e ∈ es.filter (fun x => decide (x.value = v)) := by
      rw [hf]
      exact List.mem_singleton_self e
    exact (List.mem_filter.mp this).1
  have hev : e.value = v := by
    have : e ∈ es.filter (fun x => decide (x.value = v)) := by
      rw [hf]
      exact List.mem_singleton_self e
    simpa using (List.mem_filter.mp this).2
  have hkey : v ∈ (groupByValue es).map Prod.fst := (hmem v).mpr ⟨e, hemem, hev⟩
  obtain ⟨p, hp, hpv⟩ := List.mem_map.mp hkey
  have hg : p.2 = [e] := by
    rw [hgrp p hp, hpv, hf]
  have : mergeGroup p.1 p.2 = e := by
    rw [hg, mergeGroup, if_pos (by simp)]
    rfl
  rw [merge_entities]
  exact this ▸ List.mem_map_of_mem (fun q => mergeGroup q.1 q.2) hp

theorem map_filter_key {groups : List (List Char × List Entity)} {v : List Char}
    {g : List Entity} {F : List Char × List Entity → Entity}
    (hnd : (groups.map Prod.fst).Nodup) (hval : ∀ p ∈ groups, (F p).value = p.1)
    (hmem : (v, g) ∈ groups) :
    (groups.map F).filter (fun e => decide (e.value = v)) = [F (v, g)] := by
  induction groups with
  | nil => cases hmem
  | cons q gs ih =>
    rw [List.map_cons, List.nodup_cons] at hnd
    have hhead := hnd.1
    have hndt := hnd.2
    by_cases hq : q.1 = v
    · have hqg : q = (v, g) := by
        rcases List.mem_cons.mp hmem with h | h
        · exact h.symm
        · have : v ∈ gs.map Prod.fst := by
            have := List.mem_map_of_mem Prod.fst h
            simpa using this
          rw [hq] at hhead
          exact absurd this hhead
      subst hqg
      simp only [List.map_cons]
      rw [List.filter_cons_of_pos (by simp [hval (v, g) (List.mem_cons_self _ _), hq])]
      congr 1
      simp only [List.filter_eq_nil_iff]
      intro x hx
      obtain ⟨p, hp, hpx⟩ := List.mem_map.mp hx
      subst hpx
      rw [hval p (List.mem_cons_of_mem _ hp)]
      simp only [decide_eq_true_eq]
      intro hc
      exact hhead (hc ▸ (by simpa using List.mem_map_of_mem Prod.fst hp : p.1 ∈ gs.map Prod.fst))
    · simp only [List.map_cons]
      rw [List.filter_cons_of_neg
        (by simp only [hval q (List.mem_cons_self _ _), decide_eq_true_eq]; simpa using hq)]
      have hmem' : (v, g) ∈ gs := by
        rcases List.mem_cons.mp hmem with h | h
        · exact absurd (congrArg Prod.fst h.symm) hq
        · exact h
      exact ih hndt (fun p hp => hval p (List.mem_cons_of_mem q hp)) hmem'

/-- Resolution of a non-singleton group when the priority scan succeeds. -/
theorem mergeGroup_of_find {v : List Char} {g : List Entity} {t : List Char}
    (hlen : ¬ g.length = 1)
    (hfind : priorityTypes.find? (fun p => (g.map Entity.etype).contains p) = some t) :
    mergeGroup v g = Entity.mk t v := by
  rw [mergeGroup, if_neg hlen]
  have h2 : ∀ o : Option (List Char), o = some t →
      (match o with
        | some t' => ({ etype := t', value := v } : Entity)
        | none => { etype := mostCommon (g.map Entity.etype), value := v }) = Entity.mk t v := by
    intro o ho
    subst ho
    rfl
  exact h2 _ hfind

/-! ## Claim theorems -/

/-- C2 counterexample: `_multi_replace` does NOT respect word boundaries.
The value `555-123-4567`, which occurs only as a proper prefix of the longer
token `555-123-45678`, is rewritten inside that token. -/
theorem C2_cex :
    multi_replace "555-123-45678".data [("555-123-4567".data, "<PHONE>".data)] =
      "<PHONE>8".data ∧
    multi_replace "555-123-45678".data [("555-123-4567".data, "<PHONE>".data)] ≠
      "555-123-45678".data := by
  decide

/-- C2 (amended): the substitution pass is a plain leftmost substring
replacement with no word-boundary guard — an occurrence of the value is
rewritten wherever it starts, regardless of what follows it (`v` may glue
the occurrence into a longer token). -/
theorem C2_boundaryless (old new u v : List Char) (hold : old ≠ [])
    (hu : ∀ c ∈ u, old.head? ≠ some c) :
    pyReplace old new (u ++ old ++ v) = u ++ (new ++ pyReplace old new v) := by
  rw [List.append_assoc, replace_skip old new hold u (old ++ v) hu]
  congr 1
  rw [pyReplace_head_match new hold (bool_of_pre (List.prefix_append old v)),
    List.drop_left]

/-- Witness for C2: the phone number inside `a555-123-45678` is replaced. -/
theorem C2_boundaryless_witness :
    pyReplace "555-123-4567".data "<PHONE>".data
        ("a".data ++ "555-123-4567".data ++ "8".data) =
      "a".data ++ ("<PHONE>".data ++ pyReplace "555-123-4567".data "<PHONE>".data "8".data) :=
  C2_boundaryless "555-123-4567".data "<PHONE>".data "a".data "8".data
    (by decide) (by decide)

/-- C3 counterexample: in `build_default_pipeline` the intent classifier is
placed BEFORE the coreference stage, so the order claimed by the spec
(coreference first) is not the order of the code. -/
theorem C3_cex :
    build_default_pipeline ≠
      [StageName.coreference, StageName.intentClassifier, StageName.piiDetector,
       StageName.piiMask, StageName.nameReplacement, StageName.audit] ∧
    build_default_pipeline.indexOf StageName.intentClassifier <
      build_default_pipeline.indexOf StageName.coreference := by
  decide

/-- C3 (amended): every run of the default pipeline executes the stages in
the order intent classification, coreference resolution, entity detection
with merge, masking, name replacement, audit. -/
theorem C3_amended_order (llmVote spacyVote : Option (List Char))
    (resolve : List Char → List Char) (detect : List Char → List Entity)
    (gen : Nat → List Char) (text : List Char) :
    runDefault llmVote spacyVote resolve detect gen text =
      auditProcess (nameReplacementProcess gen (maskProcess (detectorProcess detect
        (corefProcess resolve (classifierProcess llmVote spacyVote
          { original_text := text, coreference_resolved_text := [], processed_text := [],
            intent := [], pii_entities := [], replacement_map := [], audit := none }))))) :=
  rfl

/-- C9: the audit stage's "masked_entities" filter tests whether the
entity's type is a substring of the class name `"NameReplacementStage"`;
a `PERSON_NAME` entity is therefore INCLUDED in the audit list, although
the spec says name-type entities are excluded. -/
theorem C9_audit_includes_name_entity :
    (auditProcess
        { original_text := "t".data, coreference_resolved_text := "t".data,
          processed_text := "t".data, intent := "search".data,
          pii_entities := [⟨"PERSON_NAME".data, "John".data⟩], replacement_map := [],
          audit := none }).audit =
      some
        { intent := "search".data, pii_discovered := 1,
          masked_entities := [⟨"PERSON_NAME".data, "John".data⟩], name_mapping := [] } := by
  decide

/-- C10: merge output invariants — values are pairwise distinct, every
output value comes from some input candidate, and a value detected by
exactly one candidate passes through as that very entity. -/
theorem C10_merge_invariants (es : List Entity) :
    ((merge_entities es).map Entity.value).Nodup ∧
    (∀ e' ∈ merge_entities es, ∃ e ∈ es, e.value = e'.value) ∧
    (∀ (v : List Char) (e : Entity),
      es.filter (fun x => decide (x.value = v)) = [e] → e ∈ merge_entities es) :=
  ⟨merge_values_nodup es, merge_values_from_input es,
   fun v e hf => merge_singleton_passthrough es v e hf⟩

/-- Witness for C10 at a concrete candidate list. -/
theorem C10_merge_invariants_witness :
    ⟨"EMAIL".data, "a@b.co".data⟩ ∈
      merge_entities
        [⟨"EMAIL".data, "a@b.co".data⟩, ⟨"CREDIT_CARD".data, "4000123456789111".data⟩,
         ⟨"NUMBER".data, "4000123456789111".data⟩] := by
  refine (C10_merge_invariants
    [⟨"EMAIL".data, "a@b.co".data⟩, ⟨"CREDIT_CARD".data, "4000123456789111".data⟩,
     ⟨"NUMBER".data, "4000123456789111".data⟩]).2.2 "a@b.co".data
    ⟨"EMAIL".data, "a@b.co".data⟩ (by decide)

/-- C7 counterexample: the claim fails when the same value is ALSO detected
as `SSN` — the priority table puts `SSN` before `CREDIT_CARD`, so the merged
entity's type is `SSN`, not `CREDIT_CARD`. -/
theorem C7_cex :
    merge_entities
        [⟨"SSN".data, "4000123456789111".data⟩, ⟨"CREDIT_CARD".data, "4000123456789111".data⟩,
         ⟨"NUMBER".data, "4000123456789111".data⟩] =
      [⟨"SSN".data, "4000123456789111".data⟩] ∧
    (⟨"CREDIT_CARD".data, "4000123456789111".data⟩ : Entity) ∉
      merge_entities
        [⟨"SSN".data, "4000123456789111".data⟩, ⟨"CREDIT_CARD".data, "4000123456789111".data⟩,
         ⟨"NUMBER".data, "4000123456789111".data⟩] := by
  decide

/-- C7 (amended): if a value is detected both as `CREDIT_CARD` and as
`NUMBER` and is not also detected as `SSN` (the only type of higher
priority), the merged output contains exactly one entity for that value,
whose type is `CREDIT_CARD`. -/
theorem C7_merge_priority (es : List Entity) (v : List Char)
    (hcc : Entity.mk "CREDIT_CARD".data v ∈ es)
    (hnum : Entity.mk "NUMBER".data v ∈ es)
    (hssn : ∀ e ∈ es, e.value = v → e.etype ≠ "SSN".data) :
    (merge_entities es).filter (fun e => decide (e.value = v)) =
      [Entity.mk "CREDIT_CARD".data v] := by
  obtain ⟨hnd, hmem, hgrp⟩ := groupByValue_rep es
  have hkey : v ∈ (groupByValue es).map Prod.fst := (hmem v).mpr ⟨_, hcc, rfl⟩
  obtain ⟨p, hp, hpv⟩ := List.mem_map.mp hkey
  obtain ⟨pk, pg⟩ := p
  simp only at hpv
  subst hpv
  have hgv : pg = es.filter (fun x => decide (x.value = pk)) := hgrp (pk, pg) hp
  have hccg : Entity.mk "CREDIT_CARD".data pk ∈ pg := by
    rw [hgv]
    exact List.mem_filter.mpr ⟨hcc, by simp⟩
  have hnumg : Entity.mk "NUMBER".data pk ∈ pg := by
    rw [hgv]
    exact List.mem_filter.mpr ⟨hnum, by simp⟩
  have hdiff : Entity.mk "CREDIT_CARD".data pk ≠ Entity.mk "NUMBER".data pk := by
    intro h
    have h2 := congrArg Entity.etype h
    simp only at h2
    exact absurd h2 (by decide)
  have hlen : ¬ pg.length = 1 := two_mem_length_ne_one hccg hnumg hdiff
  have hfind : priorityTypes.find? (fun p => (pg.map Entity.etype).contains p) =
      some "CREDIT_CARD".data := by
    have hssnf : ((pg.map Entity.etype).contains "SSN".data) = false := by
      rw [Bool.eq_false_iff]
      intro hc
      obtain ⟨e, he, hee⟩ := List.mem_map.mp (List.elem_iff.mp hc)
      rw [hgv] at he
      obtain ⟨hees, heev⟩ := List.mem_filter.mp he
      exact hssn e hees (by simpa using heev) (by rw [hee])
    have hccf : ((pg.map Entity.etype).contains "CREDIT_CARD".data) = true := by
      exact List.elem_iff.mpr (List.mem_map_of_mem Entity.etype hccg)
    have hneg : ¬ ((pg.map Entity.etype).contains "SSN".data = true) := by
      rw [hssnf]
      exact Bool.false_ne_true
    rw [priorityTypes]
    rw [List.find?_cons_of_neg _ hneg, List.find?_cons_of_pos _ hccf]
  have hmerge : mergeGroup pk pg = Entity.mk "CREDIT_CARD".data pk :=
    mergeGroup_of_find hlen hfind
  have hval : ∀ q ∈ groupByValue es, ((fun q => mergeGroup q.1 q.2) q).value = q.1 := by
    intro q hq
    have hvq : ∀ e ∈ q.2, e.value = q.1 := by
      intro e he
      rw [hgrp q hq] at he
      simpa using (List.mem_filter.mp he).2
    have hqe : q.2 ≠ [] := by
      intro hc
      have hkq : q.1 ∈ (groupByValue es).map Prod.fst := List.mem_map_of_mem Prod.fst hq
      obtain ⟨e, he, hev⟩ := (hmem q.1).mp hkq
      have : e ∈ q.2 := by
        rw [hgrp q hq]
        exact List.mem_filter.mpr ⟨he, by simpa using hev⟩
      rw [hc] at this
      cases this
    exact mergeGroup_value hvq hqe
  have hfk := map_filter_key (F := fun q => mergeGroup q.1 q.2) hnd hval hp
  have hF : (fun q : List Char × List Entity => mergeGroup q.1 q.2) (pk, pg) =
      Entity.mk "CREDIT_CARD".data pk := hmerge
  rw [merge_entities, hfk, hF]

/-- Witness for C7 at a concrete candidate list. -/
theorem C7_merge_priority_witness :
    (merge_entities
        [⟨"CREDIT_CARD".data, "4000123456789111".data⟩,
         ⟨"NUMBER".data, "4000123456789111".data⟩]).filter
      (fun e => decide (e.value = "4000123456789111".data)) =
      [Entity.mk "CREDIT_CARD".data "4000123456789111".data] :=
  C7_merge_priority
    [⟨"CREDIT_CARD".data, "4000123456789111".data⟩, ⟨"NUMBER".data, "4000123456789111".data⟩]
    "4000123456789111".data (by decide) (by decide) (by decide)

/-- The intent written by the classifier, unfolded. -/
theorem classifierProcess_intent_eq (llmVote spacyVote : Option (List Char))
    (ctx : PipelineContext) :
    (classifierProcess llmVote spacyVote ctx).intent =
      (if (llmVote.toList ++ spacyVote.toList ++
            [keyword_intent_classification ctx.original_text]).length = 0 then "search".data
       else if countVotes (llmVote.toList ++ spacyVote.toList ++
            [keyword_intent_classification ctx.original_text]) "search".data =
          countVotes (llmVote.toList ++ spacyVote.toList ++
            [keyword_intent_classification ctx.original_text]) "reasoning".data then
         keyword_intent_classification ctx.original_text
       else if countVotes (llmVote.toList ++ spacyVote.toList ++
            [keyword_intent_classification ctx.original_text]) "search".data >
          countVotes (llmVote.toList ++ spacyVote.toList ++
            [keyword_intent_classification ctx.original_text]) "reasoning".data then
         "search".data
       else "reasoning".data) := rfl

/-- C5: ensemble vote resolution — an exact tie between the "search" and
"reasoning" tallies always resolves to the keyword strategy's own result,
and otherwise the bucket with strictly more votes wins. The optional votes
model the LLM and spaCy strategies (absent when unavailable or failed); the
well-formedness hypothesis records that every cast vote is one of the two
labels, as in the code. -/
theorem C5_tie_break (llmVote spacyVote : Option (List Char)) (ctx : PipelineContext)
    (_hwf : (∀ v ∈ llmVote.toList, v = "search".data ∨ v = "reasoning".data) ∧
           (∀ v ∈ spacyVote.toList, v = "search".data ∨ v = "reasoning".data)) :
    (countVotes (llmVote.toList ++ spacyVote.toList ++
        [keyword_intent_classification ctx.original_text]) "search".data =
      countVotes (llmVote.toList ++ spacyVote.toList ++
        [keyword_intent_classification ctx.original_text]) "reasoning".data →
      (classifierProcess llmVote spacyVote ctx).intent =
        keyword_intent_classification ctx.original_text) ∧
    (countVotes (llmVote.toList ++ spacyVote.toList ++
        [keyword_intent_classification ctx.original_text]) "search".data >
      countVotes (llmVote.toList ++ spacyVote.toList ++
        [keyword_intent_classification ctx.original_text]) "reasoning".data →
      (classifierProcess llmVote spacyVote ctx).intent = "search".data) ∧
    (countVotes (llmVote.toList ++ spacyVote.toList ++
        [keyword_intent_classification ctx.original_text]) "reasoning".data >
      countVotes (llmVote.toList ++ spacyVote.toList ++
        [keyword_intent_classification ctx.original_text]) "search".data →
      (classifierProcess llmVote spacyVote ctx).intent = "reasoning".data) := by
  have hne : ¬ (llmVote.toList ++ spacyVote.toList ++
      [keyword_intent_classification ctx.original_text]).length = 0 := by
    simp
  refine ⟨?_, ?_, ?_⟩
  · intro h
    rw [classifierProcess_intent_eq, if_neg hne, if_pos h]
  · intro h
    rw [classifierProcess_intent_eq, if_neg hne, if_neg (by omega), if_pos h]
  · intro h
    rw [classifierProcess_intent_eq, if_neg hne, if_neg (by omega), if_neg (by omega)]

/-- Witness for C5: one "reasoning" vote (LLM) against the keyword
strategy's "search" — a tie, resolved to the keyword result. -/
theorem C5_tie_break_witness :
    (classifierProcess (some "reasoning".data) none
        { original_text := "find it".data, coreference_resolved_text := [],
          processed_text := [], intent := [], pii_entities := [], replacement_map := [],
          audit := none }).intent =
      keyword_intent_classification "find it".data :=
  (C5_tie_break (some "reasoning".data) none
    { original_text := "find it".data, coreference_resolved_text := [],
      processed_text := [], intent := [], pii_entities := [], replacement_map := [],
      audit := none } ⟨by decide, by decide⟩).1 (by decide)

/-- C6: keyword classification rule — lower-case the text, test each fixed
keyword set by substring containment; exactly one match returns that label,
otherwise the 140-character length heuristic decides. -/
theorem C6_keyword_rule (text : List Char) :
    ((∃ w ∈ SEARCH_KEYWORDS, w <:+: text.map Char.toLower) ∧
      ¬ (∃ w ∈ REASONING_KEYWORDS, w <:+: text.map Char.toLower) →
      keyword_intent_classification text = "search".data) ∧
    ((∃ w ∈ REASONING_KEYWORDS, w <:+: text.map Char.toLower) ∧
      ¬ (∃ w ∈ SEARCH_KEYWORDS, w <:+: text.map Char.toLower) →
      keyword_intent_classification text = "reasoning".data) ∧
    (((∃ w ∈ SEARCH_KEYWORDS, w <:+: text.map Char.toLower) ↔
      (∃ w ∈ REASONING_KEYWORDS, w <:+: text.map Char.toLower)) →
      ((text.map Char.toLower).length < 140 →
        keyword_intent_classification text = "search".data) ∧
      (¬ (text.map Char.toLower).length < 140 →
        keyword_intent_classification text = "reasoning".data)) := by
  have hS : SEARCH_KEYWORDS.any (fun w => containsSub (text.map Char.toLower) w) = true ↔
      ∃ w ∈ SEARCH_KEYWORDS, w <:+: text.map Char.toLower := by
    rw [List.any_eq_true]
    constructor
    · rintro ⟨w, hw, hc⟩
      exact ⟨w, hw, of_decide_eq_true hc⟩
    · rintro ⟨w, hw, hc⟩
      exact ⟨w, hw, decide_eq_true hc⟩
  have hR : REASONING_KEYWORDS.any (fun w => containsSub (text.map Char.toLower) w) = true ↔
      ∃ w ∈ REASONING_KEYWORDS, w <:+: text.map Char.toLower := by
    rw [List.any_eq_true]
    constructor
    · rintro ⟨w, hw, hc⟩
      exact ⟨w, hw, of_decide_eq_true hc⟩
    · rintro ⟨w, hw, hc⟩
      exact ⟨w, hw, decide_eq_true hc⟩
  refine ⟨?_, ?_, ?_⟩
  · rintro ⟨hs, hr⟩
    rw [keyword_intent_classification, if_pos]
    exact ⟨hS.mpr hs, fun hc => hr (hR.mp hc)⟩
  · rintro ⟨hr, hs⟩
    rw [keyword_intent_classification, if_neg, if_pos]
    · exact ⟨hR.mpr hr, fun hc => hs (hS.mp hc)⟩
    · rintro ⟨hsc, _⟩
      exact hs (hS.mp hsc)
  · intro hiff
    constructor
    · intro hlen
      rw [keyword_intent_classification, if_neg, if_neg, if_pos hlen]
      · rintro ⟨hrc, hsc⟩
        exact hsc (hS.mpr (hiff.mpr (hR.mp hrc)))
      · rintro ⟨hsc, hrc⟩
        exact hrc (hR.mpr (hiff.mp (hS.mp hsc)))
    · intro hlen
      rw [keyword_intent_classification, if_neg, if_neg, if_neg hlen]
      · rintro ⟨hrc, hsc⟩
        exact hsc (hS.mpr (hiff.mpr (hR.mp hrc)))
      · rintro ⟨hsc, hrc⟩
        exact hrc (hR.mpr (hiff.mp (hS.mp hsc)))

/-- Witness for C6: "find it" matches only the search keyword set. -/
theorem C6_keyword_rule_witness :
    keyword_intent_classification "find it".data = "search".data :=
  (C6_keyword_rule "find it".data).1 (by decide)

/-- C8: name-replacement gating — when the intent is not "reasoning" the
stage returns the context unchanged; when it is "reasoning", entities whose
type is neither `PERSON_NAME` nor `COMPANY_NAME` contribute nothing to the
replacement map or to the substitution (restricting the entity list to the
name-type entities yields the same `processed_text` and `replacement_map`). -/
theorem C8_gating (gen : Nat → List Char) (ctx : PipelineContext) :
    (ctx.intent ≠ "reasoning".data → nameReplacementProcess gen ctx = ctx) ∧
    (ctx.intent = "reasoning".data →
      (nameReplacementProcess gen ctx).processed_text =
        (nameReplacementProcess gen
          { ctx with pii_entities := ctx.pii_entities.filter isNameType }).processed_text ∧
      (nameReplacementProcess gen ctx).replacement_map =
        (nameReplacementProcess gen
          { ctx with pii_entities := ctx.pii_entities.filter isNameType }).replacement_map) := by
  constructor
  · intro h
    rw [nameReplacementProcess, if_pos h]
  · intro h
    have hg : ¬ ctx.intent ≠ "reasoning".data := by
      intro hc
      exact hc h
    rw [nameReplacementProcess, if_neg hg, nameReplacementProcess, if_neg (by simpa using hg)]
    simp only
    rw [nameFold_filter gen ctx.pii_entities]
    exact ⟨rfl, rfl⟩

/-- Witness for C8: a "search"-intent context passes through unchanged, and
a "reasoning"-intent context with one non-name entity produces the same
text and map as with the entity removed. -/
theorem C8_gating_witness :
    nameReplacementProcess (fun _ => "Alex SmithDoe".data)
        { original_text := "t".data, coreference_resolved_text := "t".data,
          processed_text := "t".data, intent := "search".data,
          pii_entities := [⟨"EMAIL".data, "a@b.co".data⟩], replacement_map := [],
          audit := none } =
      { original_text := "t".data, coreference_resolved_text := "t".data,
        processed_text := "t".data, intent := "search".data,
        pii_entities := [⟨"EMAIL".data, "a@b.co".data⟩], replacement_map := [],
        audit := none } ∧
    (nameReplacementProcess (fun _ => "Alex SmithDoe".data)
        { original_text := "t".data, coreference_resolved_text := "t".data,
          processed_text := "a@b.co t".data, intent := "reasoning".data,
          pii_entities := [⟨"EMAIL".data, "a@b.co".data⟩], replacement_map := [],
          audit := none }).processed_text =
      (nameReplacementProcess (fun _ => "Alex SmithDoe".data)
        { original_text := "t".data, coreference_resolved_text := "t".data,
          processed_text := "a@b.co t".data, intent := "reasoning".data,
          pii_entities :=
            [Entity.mk "EMAIL".data "a@b.co".data].filter isNameType, replacement_map := [],
          audit := none }).processed_text := by
  constructor
  · exact (C8_gating (fun _ => "Alex SmithDoe".data)
      { original_text := "t".data, coreference_resolved_text := "t".data,
        processed_text := "t".data, intent := "search".data,
        pii_entities := [⟨"EMAIL".data, "a@b.co".data⟩], replacement_map := [],
        audit := none }).1 (by decide)
  · exact ((C8_gating (fun _ => "Alex SmithDoe".data)
      { original_text := "t".data, coreference_resolved_text := "t".data,
        processed_text := "a@b.co t".data, intent := "reasoning".data,
        pii_entities := [⟨"EMAIL".data, "a@b.co".data⟩], replacement_map := [],
        audit := none }).2 (by decide)).1

/-- C1 counterexample: a merged entity list in which one value overlaps
another (the NER heuristic tags "Main" inside the address "12 Main Street").
The longer key's pass consumes the shorter value, so the placeholder
`<NUMBER>` never appears in the masked text, contradicting the claim that
every non-immune entity's placeholder occurs at least once. -/
theorem C1_cex :
    merge_entities [⟨"ADDRESS".data, "12 Main Street".data⟩, ⟨"NUMBER".data, "Main".data⟩] =
      [⟨"ADDRESS".data, "12 Main Street".data⟩, ⟨"NUMBER".data, "Main".data⟩] ∧
    (maskProcess
        { original_text := "12 Main Street".data,
          coreference_resolved_text := "12 Main Street".data,
          processed_text := "12 Main Street".data, intent := "search".data,
          pii_entities :=
            [⟨"ADDRESS".data, "12 Main Street".data⟩, ⟨"NUMBER".data, "Main".data⟩],
          replacement_map := [], audit := none }).processed_text = "<ADDRESS>".data ∧
    ¬ placeholder "NUMBER".data <:+:
      (maskProcess
        { original_text := "12 Main Street".data,
          coreference_resolved_text := "12 Main Street".data,
          processed_text := "12 Main Street".data, intent := "search".data,
          pii_entities :=
            [⟨"ADDRESS".data, "12 Main Street".data⟩, ⟨"NUMBER".data, "Main".data⟩],
          replacement_map := [], audit := none }).processed_text := by
  decide

/-- C1 (amended): masking coverage under non-interference. If the merged
entity values are pairwise distinct, every non-immune value occurs in the
working text and the resulting substitution map is non-interfering (no key
occurs in or shares a boundary character with any placeholder, distinct
keys share no characters), then after the masking stage every non-immune
entity's placeholder occurs in `processed_text` and its value does not;
immune-type entities contribute no substitution key, and their values
(sharing no character with any key) still occur. -/
theorem C1_masking_coverage (ctx : PipelineContext)
    (hnd : (ctx.pii_entities.map Entity.value).Nodup)
    (hcond : ∀ p ∈ maskPairs ctx.pii_entities,
      EliminableKey (maskPairs ctx.pii_entities) p.1 ∧
      p.1 <:+: ctx.processed_text ∧
      InsertableVal (maskPairs ctx.pii_entities) p.1 p.2)
    (himm : ∀ e ∈ ctx.pii_entities, e.etype ∈ IMMUNE_TYPES →
      e.value ≠ [] ∧ e.value <:+: ctx.processed_text ∧
      ∀ q ∈ maskPairs ctx.pii_entities, ∀ c ∈ e.value, c ∉ q.1) :
    ∀ e ∈ ctx.pii_entities,
      (e.etype ∉ IMMUNE_TYPES →
        placeholder e.etype <:+: (maskProcess ctx).processed_text ∧
        ¬ e.value <:+: (maskProcess ctx).processed_text) ∧
      (e.etype ∈ IMMUNE_TYPES →
        e.value ∉ (maskPairs ctx.pii_entities).map Prod.fst ∧
        e.value <:+: (maskProcess ctx).processed_text) := by
  intro e he
  have hne : ctx.pii_entities ≠ [] := by
    intro hc
    rw [hc] at he
    cases he
  have hproc : (maskProcess ctx).processed_text =
      multi_replace ctx.processed_text (maskPairs ctx.pii_entities) := by
    rw [maskProcess, if_neg hne]
  constructor
  · intro hni
    have hmem := mem_maskPairs hnd he hni
    obtain ⟨helim, hpres, hins⟩ := hcond _ hmem
    rw [hproc]
    exact ⟨multi_put ctx.processed_text helim.1 hins (maskPairs_keys_nodup hnd) hmem hpres,
      multi_gone ctx.processed_text hmem helim⟩
  · intro him
    obtain ⟨hv, hvp, hdisj⟩ := himm e he him
    refine ⟨immune_not_key hnd he him, ?_⟩
    rw [hproc]
    refine multi_keep_occ ctx.processed_text hv ?_ hvp
    intro q hq
    exact ⟨(hcond q hq).1.2 q hq |>.1, hdisj q hq⟩

/-- Witness for C1: one phone entity and one immune person entity. -/
theorem C1_masking_coverage_witness :
    placeholder "PHONE".data <:+:
      (maskProcess
        { original_text := "Bob 111-222-3333".data,
          coreference_resolved_text := "Bob 111-222-3333".data,
          processed_text := "Bob 111-222-3333".data, intent := "search".data,
          pii_entities :=
            [⟨"PHONE".data, "111-222-3333".data⟩, ⟨"PERSON_NAME".data, "Bob".data⟩],
          replacement_map := [], audit := none }).processed_text ∧
    ¬ "111-222-3333".data <:+:
      (maskProcess
        { original_text := "Bob 111-222-3333".data,
          coreference_resolved_text := "Bob 111-222-3333".data,
          processed_text := "Bob 111-222-3333".data, intent := "search".data,
          pii_entities :=
            [⟨"PHONE".data, "111-222-3333".data⟩, ⟨"PERSON_NAME".data, "Bob".data⟩],
          replacement_map := [], audit := none }).processed_text ∧
    "Bob".data <:+:
      (maskProcess
        { original_text := "Bob 111-222-3333".data,
          coreference_resolved_text := "Bob 111-222-3333".data,
          processed_text := "Bob 111-222-3333".data, intent := "search".data,
          pii_entities :=
            [⟨"PHONE".data, "111-222-3333".data⟩, ⟨"PERSON_NAME".data, "Bob".data⟩],
          replacement_map := [], audit := none }).processed_text := by
  have h := C1_masking_coverage
    { original_text := "Bob 111-222-3333".data,
      coreference_resolved_text := "Bob 111-222-3333".data,
      processed_text := "Bob 111-222-3333".data, intent := "search".data,
      pii_entities :=
        [⟨"PHONE".data, "111-222-3333".data⟩, ⟨"PERSON_NAME".data, "Bob".data⟩],
      replacement_map := [], audit := none }
    (by decide) (by decide) (by decide)
  have h1 := (h ⟨"PHONE".data, "111-222-3333".data⟩ (by decide)).1 (by decide)
  have h2 := (h ⟨"PERSON_NAME".data, "Bob".data⟩ (by decide)).2 (by decide)
  exact ⟨h1.1, h1.2, h2.2⟩

/-- The name-replacement stage under "reasoning" intent, unfolded. -/
theorem nameReplacementProcess_eq (gen : Nat → List Char) (ctx : PipelineContext)
    (h : ctx.intent = "reasoning".data) :
    nameReplacementProcess gen ctx =
      { ctx with
        replacement_map :=
          (ctx.pii_entities.foldl (nameStep gen) ([], ctx.replacement_map, 0)).2.1
        processed_text := multi_replace ctx.processed_text
          (ctx.pii_entities.foldl (nameStep gen) ([], ctx.replacement_map, 0)).1 } := by
  rw [nameReplacementProcess, if_neg (fun hc => hc h)]

/-- C4 counterexample: a "reasoning" run whose person-name value does not
occur in the working text (here because the masking stage already consumed
it inside an address placeholder). The alias is recorded in
`replacement_map` but never appears in `processed_text`, refuting the claim
that every value of the map is present. -/
theorem C4_cex :
    ("John Smith".data, "Alex SmithDoe".data) ∈
      (nameReplacementProcess (fun _ => "Alex SmithDoe".data)
        { original_text := "x".data, coreference_resolved_text := "x".data,
          processed_text := "Call <ADDRESS> now".data, intent := "reasoning".data,
          pii_entities := [⟨"PERSON_NAME".data, "John Smith".data⟩], replacement_map := [],
          audit := none }).replacement_map ∧
    ¬ "Alex SmithDoe".data <:+:
      (nameReplacementProcess (fun _ => "Alex SmithDoe".data)
        { original_text := "x".data, coreference_resolved_text := "x".data,
          processed_text := "Call <ADDRESS> now".data, intent := "reasoning".data,
          pii_entities := [⟨"PERSON_NAME".data, "John Smith".data⟩], replacement_map := [],
          audit := none }).processed_text := by
  decide

/-- C4 (amended): replacement-map effectiveness under non-interference.
For a "reasoning" run that starts with an empty replacement map, if the
name-type entity values are pairwise distinct, every one of them occurs in
the working text, and the generated aliases are non-interfering (no key
occurs in or shares a boundary character with an alias, distinct keys and
foreign aliases share no characters with a key), then after the
name-replacement stage every key of `replacement_map` is absent from
`processed_text` and every alias value is present. -/
theorem C4_replacement_effective (gen : Nat → List Char) (ctx : PipelineContext)
    (hint : ctx.intent = "reasoning".data)
    (hmap0 : ctx.replacement_map = [])
    (hnd : ((ctx.pii_entities.filter isNameType).map Entity.value).Nodup)
    (hcond : ∀ p ∈ aliasPairs gen 0 ctx.pii_entities,
      EliminableKey (aliasPairs gen 0 ctx.pii_entities) p.1 ∧
      p.1 <:+: ctx.processed_text ∧
      InsertableVal (aliasPairs gen 0 ctx.pii_entities) p.1 p.2) :
    ∀ p ∈ (nameReplacementProcess gen ctx).replacement_map,
      ¬ p.1 <:+: (nameReplacementProcess gen ctx).processed_text ∧
      p.2 <:+: (nameReplacementProcess gen ctx).processed_text := by
  have hfold : ctx.pii_entities.foldl (nameStep gen) ([], ctx.replacement_map, 0) =
      ([] ++ aliasPairs gen 0 ctx.pii_entities, [] ++ aliasPairs gen 0 ctx.pii_entities,
        0 + (ctx.pii_entities.filter isNameType).length) := by
    rw [hmap0]
    refine nameFold_eq gen ctx.pii_entities [] [] 0 hnd ?_
    intro e _ _
    exact ⟨fun p hp => absurd hp (List.not_mem_nil p),
      fun p hp => absurd hp (List.not_mem_nil p)⟩
  have hrm : (nameReplacementProcess gen ctx).replacement_map =
      aliasPairs gen 0 ctx.pii_entities := by
    rw [nameReplacementProcess_eq gen ctx hint]
    simp only
    rw [hfold]
    simp
  have hpt : (nameReplacementProcess gen ctx).processed_text =
      multi_replace ctx.processed_text (aliasPairs gen 0 ctx.pii_entities) := by
    rw [nameReplacementProcess_eq gen ctx hint]
    simp only
    rw [hfold]
    simp
  have hknd : ((aliasPairs gen 0 ctx.pii_entities).map Prod.fst).Nodup := by
    rw [aliasPairs_keys]
    exact hnd
  intro p hp
  rw [hrm] at hp
  obtain ⟨helim, hpres, hins⟩ := hcond p hp
  rw [hpt]
  exact ⟨multi_gone ctx.processed_text hp helim,
    multi_put ctx.processed_text helim.1 hins hknd hp hpres⟩

/-- Witness for C4: one person entity whose value occurs in the text. -/
theorem C4_replacement_effective_witness :
    ¬ "Bob".data <:+:
      (nameReplacementProcess (fun _ => "Alex SmithDoe".data)
        { original_text := "Bob called".data, coreference_resolved_text := "Bob called".data,
          processed_text := "Bob called".data, intent := "reasoning".data,
          pii_entities := [⟨"PERSON_NAME".data, "Bob".data⟩], replacement_map := [],
          audit := none }).processed_text ∧
    "Alex SmithDoe".data <:+:
      (nameReplacementProcess (fun _ => "Alex SmithDoe".data)
        { original_text := "Bob called".data, coreference_resolved_text := "Bob called".data,
          processed_text := "Bob called".data, intent := "reasoning".data,
          pii_entities := [⟨"PERSON_NAME".data, "Bob".data⟩], replacement_map := [],
          audit := none }).processed_text := by
  have h := C4_replacement_effective (fun _ => "Alex SmithDoe".data)
    { original_text := "Bob called".data, coreference_resolved_text := "Bob called".data,
      processed_text := "Bob called".data, intent := "reasoning".data,
      pii_entities := [⟨"PERSON_NAME".data, "Bob".data⟩], replacement_map := [],
      audit := none } (by decide) (by decide) (by decide) (by decide)
  exact h ("Bob".data, "Alex SmithDoe".data) (by decide)

end SecurityPipeline
